import Mathlib

set_option maxRecDepth 40000

/-!
# Verification of the RAG_CODE web-to-knowledge-base ingestion pipeline

Shallow embedding of the crawling / chunking / embedding-insertion code of the
repository (files `query_scraper.py`, `excel_handler.py`, `generate_embeddings.py`,
`main.py`) together with proofs and refutations of the specification claims.

Strings are modelled as `List Char`; Python `str` methods used by the code
(`strip`, `lower`, `split`, `in`, `replace`, `endswith`) are given faithful
executable models below.  Network effects (HTTP fetches, the chunk-insertion
endpoint) are modelled as explicit oracle parameters.
-/

/-- Python whitespace (the characters `str.strip()` removes):
space, tab, newline, carriage return, vertical tab, form feed. -/
def isPySpace (c : Char) : Bool :=
  c = ' ' || c = '\t' || c = '\n' || c = '\r' || c = '\x0b' || c = '\x0c'

/-- Python `s.strip()`: drop leading and trailing whitespace. -/
def pyStrip (s : List Char) : List Char :=
  ((s.dropWhile isPySpace).reverse.dropWhile isPySpace).reverse

/-- ASCII lower-casing of a single character (Python `str.lower()` restricted to
the ASCII range, which is all the scraper's URLs use). -/
def lowerChar (c : Char) : Char :=
  if 65 ≤ c.toNat ∧ c.toNat ≤ 90 then Char.ofNat (c.toNat + 32) else c

/-- Python `s.lower()` (ASCII fragment). -/
def pyLower (s : List Char) : List Char := s.map lowerChar

/-- Python substring test `pat in s`. -/
def containsSub (pat : List Char) : List Char → Bool
  | [] => pat.isPrefixOf ([] : List Char)
  | c :: rest => pat.isPrefixOf (c :: rest) || containsSub pat rest

/-- `url.split('#')[0]` guarded by `'#' in url`, as written in `normalize_url`. -/
def stripFragment (s : List Char) : List Char :=
  if s.contains '#' then s.takeWhile (fun c => c ≠ '#') else s

/-- `if url.endswith('/'): url = url[:-1]`. -/
def stripTrailingSlash (s : List Char) : List Char :=
  if s.getLast? = some '/' then s.dropLast else s

/-- Python `url.replace('://www.', '://')`: replace every (left-to-right,
non-overlapping) occurrence of `"://www."` by `"://"`.  The first match arm
is exactly "the pattern `://www.` is a prefix here". -/
def removeWww : List Char → List Char
  | ':' :: '/' :: '/' :: 'w' :: 'w' :: 'w' :: '.' :: rest => ':' :: '/' :: '/' :: removeWww rest
  | c :: rest => c :: removeWww rest
  | [] => []

/-- The tracking-parameter step of `normalize_url`: when a `'?'` is present and
any tracking token occurs as a substring of the *whole* URL, the entire query
string is dropped (`url.split('?')[0]`); otherwise the URL is unchanged. -/
def queryStep (tracking : List (List Char)) (s : List Char) : List Char :=
  if s.contains '?' then
    if tracking.any (fun p => containsSub p s) then s.takeWhile (fun c => c ≠ '?')
    else s
  else s

/-- The first four steps of both `normalize_url` implementations (they are
textually identical in `query_scraper.py` and `excel_handler.py`):
`strip` + `lower`, fragment removal, trailing-slash removal, `www.` removal. -/
def normPrefix (u : List Char) : List Char :=
  removeWww (stripTrailingSlash (stripFragment (pyLower (pyStrip u))))

namespace EnhancedQueryScraper

/-- Tracking tokens checked by `EnhancedQueryScraper.normalize_url`
(`query_scraper.py` line 329). -/
def tracking_params : List (List Char) :=
  ["utm_".toList, "fbclid".toList, "gclid".toList, "ref".toList,
   "source".toList, "campaign".toList]

/-- `EnhancedQueryScraper.normalize_url` (`query_scraper.py` lines 311-333). -/
def normalize_url (u : List Char) : List Char :=
  queryStep tracking_params (normPrefix u)

end EnhancedQueryScraper

namespace JSONHandler

/-- Tracking tokens checked by `JSONHandler.normalize_url`
(`excel_handler.py` line 52) — note `"ref="` instead of the scraper's
`"ref"`, `"source"`, `"campaign"`. -/
def tracking_params : List (List Char) :=
  ["utm_".toList, "fbclid".toList, "gclid".toList, "ref=".toList]

/-- `JSONHandler.normalize_url` (`excel_handler.py` lines 31-56). -/
def normalize_url (u : List Char) : List Char :=
  queryStep tracking_params (normPrefix u)

end JSONHandler

namespace GenerateEmbeddings

/-- Accumulator for `pyWords` (the word currently being read, reversed). -/
def pyWordsAux (cur : List Char) : List Char → List (List Char)
  | [] => if cur = [] then [] else [cur.reverse]
  | c :: rest =>
    if isPySpace c then
      if cur = [] then pyWordsAux [] rest else cur.reverse :: pyWordsAux [] rest
    else pyWordsAux (c :: cur) rest

/-- Python `text.split()`: split on runs of whitespace, producing no empty words. -/
def pyWords (s : List Char) : List (List Char) := pyWordsAux [] s

/-- Python `" ".join(words)`. -/
def joinWords (ws : List (List Char)) : List Char := List.intercalate [' '] ws

/-- The `while start < len(words)` loop of `split_into_chunks`
(`generate_embeddings.py` lines 89-95), at the level of the word list.
`fuel` only forces termination; `split_into_chunks` supplies enough fuel
for the loop to run to completion whenever `0 < step` (the source has
`step = 500 - 50 = 450`; with `step = 0` the Python loop would not
terminate at all). -/
def chunkLoop : Nat → List (List Char) → Nat → Nat → Nat → List (List (List Char))
  | 0, _, _, _, _ => []
  | fuel + 1, ws, chunkSize, step, start =>
    if start < ws.length then
      if start + chunkSize ≥ ws.length then [(ws.drop start).take chunkSize]
      else (ws.drop start).take chunkSize :: chunkLoop fuel ws chunkSize step (start + step)
    else []

/-- `split_into_chunks(text, chunk_size, overlap)` (`generate_embeddings.py`
lines 68-97): split into words, return `[]` if there are none, else produce
overlapping word windows `words[start : start+chunk_size]` with
`start` advancing by `step = chunk_size - overlap`, joined by spaces. -/
def split_into_chunks (text : List Char) (chunkSize : Nat := 500) (overlap : Nat := 50) :
    List (List Char) :=
  let words := pyWords text
  if words = [] then []
  else (chunkLoop (words.length + 1) words chunkSize (chunkSize - overlap) 0).map joinWords

/-- `CHUNK_INSERT_RETRIES = 2` (`generate_embeddings.py` line 59). -/
def CHUNK_INSERT_RETRIES : Nat := 2

/-- One outcome of `requests.post` on the storage endpoint: an HTTP status,
a `requests.exceptions.Timeout`, or any other request exception. -/
inductive PostResult where
  | status (code : Nat)
  | timeout
  | netError
deriving Repr, DecidableEq

/-- Observable events of the per-chunk retry loop: a POST attempt, or a
`time.sleep(secs)` backoff. -/
inductive InsEvent where
  | post (attempt : Nat)
  | sleep (secs : Nat)
deriving Repr, DecidableEq

/-- The `for attempt in range(1, CHUNK_INSERT_RETRIES + 2)` retry loop of
`insert_chunks_to_db` (`generate_embeddings.py` lines 134-167), for one chunk.
`resp attempt` is what the endpoint returns on the given attempt.  Returns the
event trace (POSTs and sleeps, in order) and whether the chunk was inserted:
* status 201: success, stop;
* other status < 500: client error, stop without retrying;
* status ≥ 500 / timeout / other error: sleep 3 s and retry while
  `attempt ≤ CHUNK_INSERT_RETRIES`, else fall off the loop. -/
def attemptLoop (resp : Nat → PostResult) (retries : Nat) :
    List Nat → List InsEvent × Bool
  | [] => ([], false)
  | a :: rest =>
    match resp a with
    | .status c =>
      if c = 201 then ([InsEvent.post a], true)
      else if c < 500 then ([InsEvent.post a], false)
      else if a ≤ retries then
        let r := attemptLoop resp retries rest
        (InsEvent.post a :: InsEvent.sleep 3 :: r.1, r.2)
      else
        let r := attemptLoop resp retries rest
        (InsEvent.post a :: r.1, r.2)
    | _ =>
      if a ≤ retries then
        let r := attemptLoop resp retries rest
        (InsEvent.post a :: InsEvent.sleep 3 :: r.1, r.2)
      else
        let r := attemptLoop resp retries rest
        (InsEvent.post a :: r.1, r.2)

/-- The whole retry loop for one chunk: attempts `1, 2, …, retries + 1`. -/
def tryInsertChunk (resp : Nat → PostResult) : List InsEvent × Bool :=
  attemptLoop resp CHUNK_INSERT_RETRIES (List.range' 1 (CHUNK_INSERT_RETRIES + 1))

/-- Number of POST events in a trace. -/
def postCount (evs : List InsEvent) : Nat :=
  evs.countP fun e => match e with | .post _ => true | _ => false

/-- `insert_chunks_to_db` (`generate_embeddings.py` lines 108-173): split the
text into chunks, skip blank chunks, run the retry loop for each remaining
chunk, and return the number of chunks successfully inserted.  `oracle i`
is the endpoint's behaviour for chunk number `i` (the embedding model call
has no effect on control flow and is omitted). -/
def insert_chunks_to_db (oracle : Nat → Nat → PostResult) (plain_text : List Char) : Nat :=
  let chunks := split_into_chunks plain_text 500
  (chunks.enum).foldl
    (fun inserted ic =>
      if pyStrip ic.2 = [] then inserted
      else if (tryInsertChunk (oracle ic.1)).2 then inserted + 1 else inserted)
    0

/-- `_update_last_id(new_id)` (`generate_embeddings.py` lines 220-226) as a
transition on the stored marker value: the file is overwritten only when the
new identifier strictly exceeds the stored one. -/
def update_last_id (new_id stored : Int) : Int :=
  if new_id > stored then new_id else stored

end GenerateEmbeddings

namespace EnhancedQueryScraper

/-- One extracted content section as produced by `_extract_content_sections`
(`query_scraper.py` lines 374-423): a header, a paragraph (both carrying their
`content.split()` word list), or a list (carrying each item's word list). -/
inductive CSection where
  | header (words : List (List Char))
  | para (words : List (List Char))
  | listSec (items : List (List (List Char)))
deriving Repr, DecidableEq

/-- The `word_count` computed for a section in `_create_text_chunks`
(`query_scraper.py` lines 447-458): `len(content.split())` for headers and
paragraphs, `sum(len(item.split()) for item in content)` for lists. -/
def sectionWordCount : CSection → Nat
  | .header ws => ws.length
  | .para ws => ws.length
  | .listSec its => (its.map List.length).sum

/-- `MAX_WORDS_PER_CHUNK = 500` (`query_scraper.py` line 439).  (The
`TARGET_WORDS_PER_CHUNK = 300` constant on line 438 is never used.) -/
def MAX_WORDS_PER_CHUNK : Nat := 500

/-- The grouping loop of `_create_text_chunks` (`query_scraper.py` lines
441-481), with accumulator `cur` (= `current_chunk`, as whole sections) and
`cnt` (= `current_word_count`).  A chunk boundary is forced exactly when
`current_word_count > 0 and current_word_count + word_count > 500`; the
final chunk is appended when non-empty.  The source then renders every
group joined under a `--- Section n ---` marker; the grouping itself is
what the chunk-bound claims are about. -/
def chunkSectionsAux : List CSection → List CSection → Nat → List (List CSection)
  | [], cur, _ => if cur = [] then [] else [cur]
  | s :: rest, cur, cnt =>
    if 0 < cnt ∧ cnt + sectionWordCount s > MAX_WORDS_PER_CHUNK then
      cur :: chunkSectionsAux rest [s] (sectionWordCount s)
    else
      chunkSectionsAux rest (cur ++ [s]) (cnt + sectionWordCount s)

/-- `_create_text_chunks` at the section-grouping level: which sections end up
together in one chunk.  (On empty input the source returns the fixed string
`"No content extracted"`; here that is the empty group list.) -/
def create_text_chunks (sections : List CSection) : List (List CSection) :=
  chunkSectionsAux sections [] 0

/-- Total word count of one produced chunk, as counted by the source. -/
def chunkWords (g : List CSection) : Nat := (g.map sectionWordCount).sum

end EnhancedQueryScraper

/-! ## Crawl strategies

The three traversal functions `crawl_website_bfs`, `crawl_website_dfs` and
`crawl_website_priority` (`query_scraper.py` lines 599-863) are embedded with
the network abstracted as an oracle `Web`: for each URL, `session.get` +
`raise_for_status` + parsing either succeeds (yielding the page title, text and
the result of `extract_and_prioritize_links` for that page) or raises (a non-2xx
status via `raise_for_status`, or a transient network error).  Every URL passed
to `session.get` is recorded in a `fetched` trace. -/

namespace EnhancedQueryScraper

/-- One discovered link as returned by `extract_and_prioritize_links`
(`query_scraper.py` lines 525-575). -/
structure LinkInfo where
  url : List Char
  text : List Char
  score : Nat
  keywords : List (List Char)
deriving Repr, DecidableEq

/-- Outcome of fetching one URL. -/
inductive FetchOutcome where
  | ok (title : List Char) (text : List Char) (links : List LinkInfo)
  | httpError (code : Nat)
  | netError
deriving Repr, DecidableEq

/-- The abstract web: what fetching each URL yields. -/
def Web := List Char → FetchOutcome

/-- One page record appended to `scraped_pages`. -/
structure ScrapedPage where
  url : List Char
  title : List Char
  text : List Char
deriving Repr, DecidableEq

/-- State of the BFS loop of `crawl_website_bfs`. -/
structure CrawlState where
  queue : List (List Char)
  visited : List (List Char)
  scraped : List ScrapedPage
  fetched : List (List Char)
deriving Repr, DecidableEq

/-- The link-enqueue loop of `crawl_website_bfs` (`query_scraper.py` lines
655-661): for each discovered link, if its normalized form is not in
`visited`, add the normalized form to `visited` and append the raw URL to the
queue.  Returns the new queue and visited set. -/
def enqueueLinks : List LinkInfo → List (List Char) → List (List Char) →
    List (List Char) × List (List Char)
  | [], q, v => (q, v)
  | l :: ls, q, v =>
    if v.contains (normalize_url l.url) then enqueueLinks ls q v
    else enqueueLinks ls (q ++ [l.url]) (normalize_url l.url :: v)

/-- One iteration of the BFS `while queue:` body (`query_scraper.py` lines
619-667): pop the front URL, fetch it; on success record the page and enqueue
its unseen links, on any exception just continue with the rest of the queue. -/
def bfsStep (web : Web) (st : CrawlState) : CrawlState :=
  match st.queue with
  | [] => st
  | current :: rest =>
    match web current with
    | .ok title text links =>
      let qv := enqueueLinks links rest st.visited
      { queue := qv.1, visited := qv.2,
        scraped := st.scraped ++ [⟨current, title, text⟩],
        fetched := st.fetched ++ [current] }
    | .httpError _ => { st with queue := rest, fetched := st.fetched ++ [current] }
    | .netError => { st with queue := rest, fetched := st.fetched ++ [current] }

/-- `len(scraped_pages) >= max_pages`, with `none` modelling
`max_pages = float('inf')` (unlimited). -/
def budgetReached (maxPages : Option Nat) (n : Nat) : Bool :=
  match maxPages with
  | none => false
  | some m => m ≤ n

/-- Initial BFS state: queue seeded with the start URL, whose normalized form
is pre-inserted into `visited` (`query_scraper.py` lines 612-617). -/
def bfsInit (start : List Char) : CrawlState :=
  { queue := [start], visited := [normalize_url start], scraped := [], fetched := [] }

/-- The BFS `while` loop; `fuel` only forces termination. -/
def bfsLoop (web : Web) (maxPages : Option Nat) : Nat → CrawlState → CrawlState
  | 0, st => st
  | fuel + 1, st =>
    if st.queue = [] then st
    else if budgetReached maxPages st.scraped.length then st
    else bfsLoop web maxPages fuel (bfsStep web st)

/-- `crawl_website_bfs` (`query_scraper.py` lines 599-670), returning the full
final state (its `scraped` field is the function's return value). -/
def crawl_website_bfs (web : Web) (start : List Char) (maxPages : Option Nat)
    (fuel : Nat) : CrawlState :=
  bfsLoop web maxPages fuel (bfsInit start)

/-- State threaded through the DFS recursion (`visited`, `scraped_pages`
are shared mutable arguments in the source; `fetched` is the fetch trace). -/
structure DfsState where
  visited : List (List Char)
  scraped : List ScrapedPage
  fetched : List (List Char)
deriving Repr, DecidableEq

/-- `crawl_website_dfs` (`query_scraper.py` lines 672-746): return unchanged
when the page budget is reached or `depth > max_depth`; return unchanged when
the URL's normalized form was already visited; otherwise mark it visited,
fetch it, and on success record the page and recurse into each discovered
link (skipping the rest once the budget is reached — the source `break`s,
which yields the same state).  `fuel` only forces termination. -/
def crawl_website_dfs_rec (web : Web) (maxPages : Option Nat) (maxDepth : Nat) :
    Nat → List Char → Nat → DfsState → DfsState
  | 0, _, _, st => st
  | fuel + 1, url, depth, st =>
    if budgetReached maxPages st.scraped.length || decide (depth > maxDepth) then st
    else if st.visited.contains (normalize_url url) then st
    else
      let st1 : DfsState :=
        { st with visited := normalize_url url :: st.visited,
                  fetched := st.fetched ++ [url] }
      match web url with
      | .ok title text links =>
        let st2 := { st1 with scraped := st1.scraped ++ [⟨url, title, text⟩] }
        links.foldl
          (fun s l =>
            if budgetReached maxPages s.scraped.length then s
            else crawl_website_dfs_rec web maxPages maxDepth fuel l.url (depth + 1) s)
          st2
      | .httpError _ => st1
      | .netError => st1

/-- Top-level `crawl_website_dfs` call (fresh visited set and result list,
`depth = 0`, `max_depth = 10`). -/
def crawl_website_dfs (web : Web) (start : List Char) (maxPages : Option Nat)
    (fuel : Nat) : DfsState :=
  crawl_website_dfs_rec web maxPages 10 fuel start 0 ⟨[], [], []⟩

/-- A priority-queue entry `(score, url, keywords)`. -/
structure QItem where
  score : Nat
  url : List Char
  keywords : List (List Char)
deriving Repr, DecidableEq

/-- Stable insertion into a descending-by-score list (helper for `sortDesc`). -/
def insertDesc (x : QItem) : List QItem → List QItem
  | [] => [x]
  | y :: ys => if x.score > y.score then x :: y :: ys else y :: insertDesc x ys

/-- `priority_queue.sort(key=lambda x: x[0], reverse=True)`: stable descending
sort by score (insertion sort — stable, hence the same result as Python's). -/
def sortDesc : List QItem → List QItem
  | [] => []
  | x :: xs => insertDesc x (sortDesc xs)

/-- State of the priority crawl loop. -/
structure PriorityState where
  pq : List QItem
  visited : List (List Char)
  scraped : List ScrapedPage
  fetched : List (List Char)
deriving Repr, DecidableEq

/-- The link-enqueue loop of `crawl_website_priority` (`query_scraper.py`
lines 845-851): unseen links are appended as `(score, url, keywords)` items
and their normalized forms added to `visited`. -/
def enqueuePriority : List LinkInfo → List QItem → List (List Char) →
    List QItem × List (List Char)
  | [], q, v => (q, v)
  | l :: ls, q, v =>
    if v.contains (normalize_url l.url) then enqueuePriority ls q v
    else enqueuePriority ls (q ++ [(⟨l.score, l.url, l.keywords⟩ : QItem)]) (normalize_url l.url :: v)

/-- One iteration of the priority `while priority_queue:` body
(`query_scraper.py` lines 813-860): pop the highest-priority entry (the head,
since the queue is kept sorted), fetch it; on success record the page, enqueue
unseen links and re-sort; on any exception continue. -/
def priorityStep (web : Web) (st : PriorityState) : PriorityState :=
  match st.pq with
  | [] => st
  | item :: rest =>
    match web item.url with
    | .ok title text links =>
      let qv := enqueuePriority links rest st.visited
      { pq := sortDesc qv.1, visited := qv.2,
        scraped := st.scraped ++ [⟨item.url, title, text⟩],
        fetched := st.fetched ++ [item.url] }
    | .httpError _ => { st with pq := rest, fetched := st.fetched ++ [item.url] }
    | .netError => { st with pq := rest, fetched := st.fetched ++ [item.url] }

/-- The priority `while` loop; `fuel` only forces termination. -/
def priorityLoop (web : Web) (maxPages : Option Nat) : Nat → PriorityState → PriorityState
  | 0, st => st
  | fuel + 1, st =>
    if st.pq = [] then st
    else if budgetReached maxPages st.scraped.length then st
    else priorityLoop web maxPages fuel (priorityStep web st)

/-- `crawl_website_priority` (`query_scraper.py` lines 748-863): the homepage
is fetched first unconditionally (its normalized form pre-inserted into
`visited`); on failure the crawl returns immediately; on success its links
seed the priority queue, which is sorted and then drained in priority order. -/
def crawl_website_priority (web : Web) (start : List Char) (maxPages : Option Nat)
    (fuel : Nat) : PriorityState :=
  match web start with
  | .ok title text links =>
    let qv := enqueuePriority links [] [normalize_url start]
    priorityLoop web maxPages fuel
      { pq := sortDesc qv.1, visited := qv.2,
        scraped := [⟨start, title, text⟩], fetched := [start] }
  | _ =>
    { pq := [], visited := [normalize_url start], scraped := [], fetched := [start] }

/-- Invariant of the BFS crawl state: the fetch trace and pending queue have
pairwise-distinct normalized URLs, all of which are already in `visited`. -/
def BfsInv (st : CrawlState) : Prop :=
  ((st.fetched ++ st.queue).map normalize_url).Nodup
  ∧ ∀ u ∈ st.fetched ++ st.queue, normalize_url u ∈ st.visited

/-- Invariant of the DFS state: the fetch trace has pairwise-distinct
normalized URLs, all of which are in `visited`. -/
def DfsInv (st : DfsState) : Prop :=
  (st.fetched.map normalize_url).Nodup
  ∧ ∀ u ∈ st.fetched, normalize_url u ∈ st.visited

/-- Invariant of the priority-crawl state: the fetch trace and the queued
URLs have pairwise-distinct normalized forms, all of which are in `visited`. -/
def PrInv (st : PriorityState) : Prop :=
  ((st.fetched ++ st.pq.map QItem.url).map normalize_url).Nodup
  ∧ ∀ u ∈ st.fetched ++ st.pq.map QItem.url, normalize_url u ∈ st.visited

/-- Example web for the link-cap claims: the start page yields six distinct
in-domain links and every other page yields none. -/
def capWeb : Web := fun u =>
  if u = "http://s.com".toList then
    .ok [] []
      [⟨"http://s.com/p1".toList, [], 90, []⟩,
       ⟨"http://s.com/p2".toList, [], 85, []⟩,
       ⟨"http://s.com/p3".toList, [], 80, []⟩,
       ⟨"http://s.com/p4".toList, [], 75, []⟩,
       ⟨"http://s.com/p5".toList, [], 70, []⟩,
       ⟨"http://s.com/p6".toList, [], 65, []⟩]
  else .ok [] [] []

/-- Example web on which every fetch raises a transient network error. -/
def downWeb : Web := fun _ => FetchOutcome.netError

end EnhancedQueryScraper

/-! ## Helper lemmas -/

/-- Folding the per-chunk body of `insert_chunks_to_db` counts the non-blank
chunks whose retry loop succeeds. -/
theorem insertFold_eq_countP (oracle : Nat → Nat → GenerateEmbeddings.PostResult) :
    ∀ (l : List (Nat × List Char)) (acc : Nat),
      l.foldl
        (fun inserted ic =>
          if pyStrip ic.2 = [] then inserted
          else if (GenerateEmbeddings.tryInsertChunk (oracle ic.1)).2 then inserted + 1
          else inserted)
        acc
      = acc + l.countP
          (fun ic => !(pyStrip ic.2 == []) && (GenerateEmbeddings.tryInsertChunk (oracle ic.1)).2) := by
  intro l
  induction l with
  | nil => intro acc; simp
  | cons ic rest ih =>
    intro acc
    rw [List.foldl_cons, List.countP_cons, ih]
    by_cases hb : pyStrip ic.2 = []
    · simp [hb]
    · by_cases hs : (GenerateEmbeddings.tryInsertChunk (oracle ic.1)).2
      · simp [hb, hs]; omega
      · simp [hb, hs]

/-! ## C1: retry policy of `insert_chunks_to_db` -/

/-- C1.  For every chunk processed by `insert_chunks_to_db`: an endpoint that
returns 503 twice and then 201 causes exactly 3 POST attempts, each retry
preceded by a 3-second sleep, and the chunk is counted as inserted; an
endpoint that always returns 400 causes exactly 1 POST attempt and the chunk
is recorded as failed.  The returned total counts exactly the non-blank
chunks whose retry loop succeeded, so a 503-503-201 chunk contributes one and
an always-400 chunk contributes nothing. -/
theorem insert_chunks_retry_policy :
    (∀ resp : Nat → GenerateEmbeddings.PostResult,
      resp 1 = .status 503 → resp 2 = .status 503 → resp 3 = .status 201 →
      GenerateEmbeddings.tryInsertChunk resp
        = ([.post 1, .sleep 3, .post 2, .sleep 3, .post 3], true))
    ∧ (∀ resp : Nat → GenerateEmbeddings.PostResult,
      (∀ a, resp a = .status 400) →
      GenerateEmbeddings.tryInsertChunk resp = ([.post 1], false))
    ∧ (∀ (oracle : Nat → Nat → GenerateEmbeddings.PostResult) (text : List Char),
      GenerateEmbeddings.insert_chunks_to_db oracle text
        = (GenerateEmbeddings.split_into_chunks text 500).enum.countP
            (fun ic => !(pyStrip ic.2 == [])
              && (GenerateEmbeddings.tryInsertChunk (oracle ic.1)).2)) := by
  refine ⟨?_, ?_, ?_⟩
  · intro resp h1 h2 h3
    simp [GenerateEmbeddings.tryInsertChunk, GenerateEmbeddings.CHUNK_INSERT_RETRIES,
      List.range', GenerateEmbeddings.attemptLoop, h1, h2, h3]
  · intro resp h
    simp [GenerateEmbeddings.tryInsertChunk, GenerateEmbeddings.CHUNK_INSERT_RETRIES,
      List.range', GenerateEmbeddings.attemptLoop, h]
  · intro oracle text
    rw [GenerateEmbeddings.insert_chunks_to_db, insertFold_eq_countP, Nat.zero_add]

/-- Witness for C1 at concrete endpoint behaviours. -/
theorem insert_chunks_retry_policy_witness :
    GenerateEmbeddings.tryInsertChunk
        (fun a => if a = 1 then .status 503 else if a = 2 then .status 503 else .status 201)
      = ([.post 1, .sleep 3, .post 2, .sleep 3, .post 3], true)
    ∧ GenerateEmbeddings.tryInsertChunk (fun _ => .status 400) = ([.post 1], false) :=
  ⟨insert_chunks_retry_policy.1 _ rfl rfl rfl,
   insert_chunks_retry_policy.2.1 _ (fun _ => rfl)⟩

/-! ## C8: monotone last-processed-identifier marker -/

/-- C8.  `_update_last_id` writes only when the new identifier strictly exceeds
the stored value: a single call never decreases the marker, no sequence of
calls decreases it, and after processing identifiers `a` then `b` (in either
order, since `a` and `b` are universally quantified) from a marker not above
`max a b`, the marker equals `max a b`. -/
theorem update_last_id_monotone :
    (∀ v n : Int, v ≤ GenerateEmbeddings.update_last_id n v)
    ∧ (∀ (v0 : Int) (ids : List Int),
        v0 ≤ ids.foldl (fun cur n => GenerateEmbeddings.update_last_id n cur) v0)
    ∧ (∀ v0 a b : Int, v0 ≤ max a b →
        GenerateEmbeddings.update_last_id b (GenerateEmbeddings.update_last_id a v0)
          = max a b) := by
  have hstep : ∀ v n : Int, v ≤ GenerateEmbeddings.update_last_id n v := by
    intro v n
    simp only [GenerateEmbeddings.update_last_id]
    split <;> omega
  refine ⟨hstep, ?_, ?_⟩
  · intro v0 ids
    induction ids generalizing v0 with
    | nil => simp
    | cons n rest ih =>
      calc v0 ≤ GenerateEmbeddings.update_last_id n v0 := hstep v0 n
        _ ≤ _ := by rw [List.foldl_cons]; exact ih _
  · intro v0 a b h
    simp only [GenerateEmbeddings.update_last_id]
    split <;> split <;> omega

/-- Witness for C8: from marker 0, processing ids 7 then 3 leaves `max 7 3`. -/
theorem update_last_id_monotone_witness :
    GenerateEmbeddings.update_last_id 3 (GenerateEmbeddings.update_last_id 7 0) = max 7 3 :=
  update_last_id_monotone.2.2 0 7 3 (by decide)

/-! ## C9: the extraction chunker's word bound -/

/-- Loop invariant of the grouping loop of `_create_text_chunks`:
provided the accumulator satisfies the bound-or-oversized-section property,
every emitted group satisfies it, and the groups partition the input. -/
theorem chunkSectionsAux_spec :
    ∀ (rest cur : List EnhancedQueryScraper.CSection),
      (EnhancedQueryScraper.chunkWords cur ≤ 500
        ∨ ∃ s ∈ cur, 500 < EnhancedQueryScraper.sectionWordCount s) →
      (∀ g ∈ EnhancedQueryScraper.chunkSectionsAux rest cur
              (EnhancedQueryScraper.chunkWords cur),
        EnhancedQueryScraper.chunkWords g ≤ 500
          ∨ ∃ s ∈ g, 500 < EnhancedQueryScraper.sectionWordCount s)
      ∧ (EnhancedQueryScraper.chunkSectionsAux rest cur
            (EnhancedQueryScraper.chunkWords cur)).flatten = cur ++ rest := by
  intro rest
  induction rest with
  | nil =>
    intro cur hcur
    rw [EnhancedQueryScraper.chunkSectionsAux]
    by_cases h : cur = []
    · simp [h]
    · simp only [if_neg h]
      constructor
      · intro g hg
        rw [List.mem_singleton] at hg
        exact hg ▸ hcur
      · simp
  | cons s rest ih =>
    intro cur hcur
    rw [EnhancedQueryScraper.chunkSectionsAux]
    by_cases hbd : 0 < EnhancedQueryScraper.chunkWords cur
        ∧ EnhancedQueryScraper.chunkWords cur + EnhancedQueryScraper.sectionWordCount s
            > EnhancedQueryScraper.MAX_WORDS_PER_CHUNK
    · rw [if_pos hbd]
      have hsingle : EnhancedQueryScraper.chunkWords [s] ≤ 500
          ∨ ∃ t ∈ [s], 500 < EnhancedQueryScraper.sectionWordCount t := by
        by_cases hws : EnhancedQueryScraper.sectionWordCount s ≤ 500
        · left
          simp [EnhancedQueryScraper.chunkWords, hws]
        · right
          exact ⟨s, List.mem_singleton_self s, by omega⟩
      have hrec := ih [s] hsingle
      have hw : EnhancedQueryScraper.chunkWords [s] = EnhancedQueryScraper.sectionWordCount s := by
        simp [EnhancedQueryScraper.chunkWords]
      rw [hw] at hrec
      refine ⟨?_, ?_⟩
      · intro g hg
        rcases List.mem_cons.mp hg with hg | hg
        · exact hg ▸ hcur
        · exact hrec.1 g hg
      · simp only [List.flatten_cons, hrec.2]
        simp
    · rw [if_neg hbd]
      have hbd' : EnhancedQueryScraper.chunkWords cur = 0
          ∨ EnhancedQueryScraper.chunkWords cur + EnhancedQueryScraper.sectionWordCount s ≤ 500 := by
        simp only [EnhancedQueryScraper.MAX_WORDS_PER_CHUNK] at hbd
        omega
      have hnext : EnhancedQueryScraper.chunkWords (cur ++ [s]) ≤ 500
          ∨ ∃ t ∈ cur ++ [s], 500 < EnhancedQueryScraper.sectionWordCount t := by
        have hsum : EnhancedQueryScraper.chunkWords (cur ++ [s])
            = EnhancedQueryScraper.chunkWords cur + EnhancedQueryScraper.sectionWordCount s := by
          simp [EnhancedQueryScraper.chunkWords]
        rcases hbd' with h0 | hle
        · by_cases hws : EnhancedQueryScraper.sectionWordCount s ≤ 500
          · left; omega
          · right
            exact ⟨s, by simp, by omega⟩
        · left; omega
      have hrec := ih (cur ++ [s]) hnext
      have hsum : EnhancedQueryScraper.chunkWords (cur ++ [s])
          = EnhancedQueryScraper.chunkWords cur + EnhancedQueryScraper.sectionWordCount s := by
        simp [EnhancedQueryScraper.chunkWords]
      rw [hsum] at hrec
      refine ⟨hrec.1, ?_⟩
      rw [hrec.2]
      simp

/-- C9 counterexample: a single 501-word paragraph yields a chunk of 501 words,
refuting "chunks of at most 500 words each". -/
theorem create_text_chunks_counterexample :
    ¬ (∀ g ∈ EnhancedQueryScraper.create_text_chunks
          [.para (List.replicate 501 ['a'])],
        EnhancedQueryScraper.chunkWords g ≤ 500) := by
  decide

/-- C9 amended.  Every chunk produced by `_create_text_chunks` has at most
500 words unless it contains a section whose own word count already exceeds
500 (the boundary test `current_word_count > 0 and current + next > 500`
cannot split a section); and no section is split or lost: the chunks
concatenate back to the section list. -/
theorem create_text_chunks_word_bound :
    ∀ sections : List EnhancedQueryScraper.CSection,
      (∀ g ∈ EnhancedQueryScraper.create_text_chunks sections,
        EnhancedQueryScraper.chunkWords g ≤ 500
          ∨ ∃ s ∈ g, 500 < EnhancedQueryScraper.sectionWordCount s)
      ∧ (EnhancedQueryScraper.create_text_chunks sections).flatten = sections := by
  intro sections
  have h := chunkSectionsAux_spec sections [] (by left; simp [EnhancedQueryScraper.chunkWords])
  simp only [EnhancedQueryScraper.chunkWords, List.map_nil, List.sum_nil] at h
  rw [EnhancedQueryScraper.create_text_chunks]
  exact ⟨h.1, by rw [h.2]; simp⟩

/-- Witness for C9 amended: the oversized chunk produced from a single
501-word paragraph indeed contains an oversized section. -/
theorem create_text_chunks_word_bound_witness :
    EnhancedQueryScraper.chunkWords [.para (List.replicate 501 ['b'])] ≤ 500
      ∨ ∃ s ∈ ([.para (List.replicate 501 ['b'])] : List EnhancedQueryScraper.CSection),
          500 < EnhancedQueryScraper.sectionWordCount s :=
  (create_text_chunks_word_bound [.para (List.replicate 501 ['b'])]).1
    [.para (List.replicate 501 ['b'])] (by decide)

/-! ## C2 / C10: the word-window chunker `split_into_chunks` -/

/-- Full characterisation of the `while start < len(words)` loop: with
`0 < step ≤ chunkSize` and enough fuel, the loop emits the windows
`words[start + step*i : start + step*i + chunkSize]`, is non-empty, and its
last window starts before the end of the words and reaches it. -/
theorem chunkLoop_spec (ws : List (List Char)) (cs step : Nat)
    (_hstep : 0 < step) (hsc : step ≤ cs) :
    ∀ (fuel start : Nat), start < ws.length → ws.length - start ≤ fuel * step →
      GenerateEmbeddings.chunkLoop fuel ws cs step start ≠ []
      ∧ (∀ i (hi : i < (GenerateEmbeddings.chunkLoop fuel ws cs step start).length),
          (GenerateEmbeddings.chunkLoop fuel ws cs step start).get ⟨i, hi⟩
            = (ws.drop (start + step * i)).take cs)
      ∧ start + step * ((GenerateEmbeddings.chunkLoop fuel ws cs step start).length - 1)
          < ws.length
      ∧ ws.length
          ≤ start + step * ((GenerateEmbeddings.chunkLoop fuel ws cs step start).length - 1)
            + cs := by
  intro fuel
  induction fuel with
  | zero =>
    intro start h1 h2
    rw [Nat.zero_mul] at h2
    exfalso
    omega
  | succ fuel ih =>
    intro start h1 h2
    rw [GenerateEmbeddings.chunkLoop, if_pos h1]
    by_cases hend : start + cs ≥ ws.length
    · rw [if_pos hend]
      refine ⟨by simp, ?_, ?_, ?_⟩
      · intro i hi
        have hi0 : i = 0 := by simpa using Nat.lt_one_iff.mp (by simpa using hi)
        subst hi0
        simp
      · simpa using h1
      · simpa using hend
    · rw [if_neg hend]
      have hstart' : start + step < ws.length := by omega
      have hfuel' : ws.length - (start + step) ≤ fuel * step := by
        have hmul : (fuel + 1) * step = fuel * step + step := by
          rw [Nat.succ_mul]
        omega
      obtain ⟨hne, hget, hlast1, hlast2⟩ := ih (start + step) hstart' hfuel'
      have hlen : (GenerateEmbeddings.chunkLoop fuel ws cs step (start + step)).length
          = ((GenerateEmbeddings.chunkLoop fuel ws cs step (start + step)).length - 1) + 1 := by
        have := List.length_pos.mpr hne
        omega
      refine ⟨by simp, ?_, ?_, ?_⟩
      · intro i hi
        match i with
        | 0 => simp
        | j + 1 =>
          have hj : j < (GenerateEmbeddings.chunkLoop fuel ws cs step (start + step)).length := by
            simpa using hi
          have harith : start + step * (j + 1) = (start + step) + step * j := by
            rw [Nat.mul_succ]
            omega
          rw [List.get_cons_succ, hget j hj, harith]
      · rw [List.length_cons]
        have harith : start + step * ((GenerateEmbeddings.chunkLoop fuel ws cs step
              (start + step)).length + 1 - 1)
            = (start + step) + step * ((GenerateEmbeddings.chunkLoop fuel ws cs step
              (start + step)).length - 1) := by
          nth_rewrite 1 [hlen]
          rw [Nat.add_sub_cancel, Nat.mul_succ]
          omega
        rw [harith]
        exact hlast1
      · rw [List.length_cons]
        have harith : start + step * ((GenerateEmbeddings.chunkLoop fuel ws cs step
              (start + step)).length + 1 - 1)
            = (start + step) + step * ((GenerateEmbeddings.chunkLoop fuel ws cs step
              (start + step)).length - 1) := by
          nth_rewrite 1 [hlen]
          rw [Nat.add_sub_cancel, Nat.mul_succ]
          omega
        rw [harith]
        exact hlast2

/-- Coverage arithmetic: windows starting at `0, 450, …, 450*k` of width 500,
with the last window reaching `len`, cover every index `j < len`. -/
theorem window_cover_arith (k len j : Nat) (hk1 : 450 * k < len)
    (hk2 : len ≤ 450 * k + 500) (hj : j < len) :
    ∃ i ≤ k, 450 * i ≤ j ∧ j < 450 * i + 500 := by
  by_cases h : j / 450 ≤ k
  · exact ⟨j / 450, h, by omega, by omega⟩
  · exact ⟨k, Nat.le_refl k, by omega, by omega⟩

/-- C2.  On a text of exactly 1000 words, `split_into_chunks` with
`chunk_size = 500`, `overlap = 50` returns exactly the three word windows
`[0:500)`, `[450:950)`, `[900:1000)`; the two non-final chunks have exactly
500 words and the final one 100; consecutive chunks share exactly their
50-word boundary windows; and the start index advances by
`step = 500 - 50 = 450`. -/
theorem split_into_chunks_1000_words :
    ∀ text : List Char,
      (GenerateEmbeddings.pyWords text).length = 1000 →
      GenerateEmbeddings.split_into_chunks text 500 50
        = [GenerateEmbeddings.joinWords ((GenerateEmbeddings.pyWords text).take 500),
           GenerateEmbeddings.joinWords
             (((GenerateEmbeddings.pyWords text).drop 450).take 500),
           GenerateEmbeddings.joinWords ((GenerateEmbeddings.pyWords text).drop 900)]
      ∧ ((GenerateEmbeddings.pyWords text).take 500).length = 500
      ∧ (((GenerateEmbeddings.pyWords text).drop 450).take 500).length = 500
      ∧ ((GenerateEmbeddings.pyWords text).drop 900).length = 100
      ∧ ((GenerateEmbeddings.pyWords text).take 500).drop 450
          = ((GenerateEmbeddings.pyWords text).drop 450).take 50
      ∧ (((GenerateEmbeddings.pyWords text).drop 450).take 500).drop 450
          = ((GenerateEmbeddings.pyWords text).drop 900).take 50
      ∧ 500 - 50 = 450 := by
  intro text hlen
  have hne : GenerateEmbeddings.pyWords text ≠ [] := by
    intro h
    rw [h] at hlen
    simp at hlen
  obtain ⟨hne', hget, hlast1, hlast2⟩ :=
    chunkLoop_spec (GenerateEmbeddings.pyWords text) 500 450 (by omega) (by omega)
      ((GenerateEmbeddings.pyWords text).length + 1) 0 (by omega) (by omega)
  set w := GenerateEmbeddings.pyWords text with hw
  set L := GenerateEmbeddings.chunkLoop (w.length + 1) w 500 450 0 with hL
  have hk : L.length = 3 := by
    have hpos := List.length_pos.mpr hne'
    rw [hlen] at hlast1 hlast2
    omega
  have hLeq : L = [w.take 500, (w.drop 450).take 500, (w.drop 900).take 500] := by
    apply List.ext_get
    · rw [hk]; rfl
    · intro n h1 h2
      rw [hk] at h1
      interval_cases n
      · rw [hget 0 (by omega)]; simp
      · rw [hget 1 (by omega)]; simp
      · rw [hget 2 (by omega)]; simp
  have hdrop900 : (w.drop 900).take 500 = w.drop 900 := by
    apply List.take_of_length_le
    simp [hlen]
  refine ⟨?_, ?_, ?_, ?_, ?_, ?_, rfl⟩
  · rw [GenerateEmbeddings.split_into_chunks]
    simp only [if_neg hne]
    rw [← hw, ← hL, hLeq, hdrop900]
    rfl
  · simp [hlen]
  · simp [hlen]
  · simp [hlen]
  · rw [List.drop_take]
  · rw [List.drop_take, List.drop_drop]

/-- Witness for C2 at a concrete 1000-word text (`"a a a … a"`). -/
theorem split_into_chunks_1000_words_witness :
    GenerateEmbeddings.split_into_chunks
        (GenerateEmbeddings.joinWords (List.replicate 1000 ['a'])) 500 50
      = [GenerateEmbeddings.joinWords
           ((GenerateEmbeddings.pyWords
              (GenerateEmbeddings.joinWords (List.replicate 1000 ['a']))).take 500),
         GenerateEmbeddings.joinWords
           (((GenerateEmbeddings.pyWords
              (GenerateEmbeddings.joinWords (List.replicate 1000 ['a']))).drop 450).take 500),
         GenerateEmbeddings.joinWords
           ((GenerateEmbeddings.pyWords
              (GenerateEmbeddings.joinWords (List.replicate 1000 ['a']))).drop 900)] :=
  (split_into_chunks_1000_words
    (GenerateEmbeddings.joinWords (List.replicate 1000 ['a'])) (by decide)).1

/-- C10.  For every text with at least one word (and `chunk_size = 500`,
`overlap = 50`): `split_into_chunks` returns a non-empty chunk list; chunk `i`
is the word window starting at `450·i` of width (at most) 500, i.e. the words
at indices `[450·i, min(450·i+500, n))`; the last chunk is exactly the tail
starting at `450·(len-1)`, which is non-empty and hence contains the final
word; and every word index lies in some chunk's window. -/
theorem split_into_chunks_windows :
    ∀ text : List Char,
      GenerateEmbeddings.pyWords text ≠ [] →
      GenerateEmbeddings.split_into_chunks text 500 50 ≠ []
      ∧ (∀ i (hi : i < (GenerateEmbeddings.split_into_chunks text 500 50).length),
          (GenerateEmbeddings.split_into_chunks text 500 50).get ⟨i, hi⟩
            = GenerateEmbeddings.joinWords
                (((GenerateEmbeddings.pyWords text).drop (450 * i)).take 500))
      ∧ 450 * ((GenerateEmbeddings.split_into_chunks text 500 50).length - 1)
          < (GenerateEmbeddings.pyWords text).length
      ∧ ((GenerateEmbeddings.pyWords text).drop
            (450 * ((GenerateEmbeddings.split_into_chunks text 500 50).length - 1))).take 500
          = (GenerateEmbeddings.pyWords text).drop
            (450 * ((GenerateEmbeddings.split_into_chunks text 500 50).length - 1))
      ∧ (∀ j < (GenerateEmbeddings.pyWords text).length,
          ∃ i < (GenerateEmbeddings.split_into_chunks text 500 50).length,
            450 * i ≤ j ∧ j < 450 * i + 500) := by
  intro text hne
  obtain ⟨hne', hget, hlast1, hlast2⟩ :=
    chunkLoop_spec (GenerateEmbeddings.pyWords text) 500 450 (by omega) (by omega)
      ((GenerateEmbeddings.pyWords text).length + 1) 0
      (List.length_pos.mpr hne) (by omega)
  set w := GenerateEmbeddings.pyWords text with hw
  set L := GenerateEmbeddings.chunkLoop (w.length + 1) w 500 450 0 with hL
  simp only [Nat.zero_add] at hget hlast1 hlast2
  have hsplit : GenerateEmbeddings.split_into_chunks text 500 50
      = L.map GenerateEmbeddings.joinWords := by
    rw [GenerateEmbeddings.split_into_chunks]
    simp only [if_neg hne]
  rw [hsplit]
  have hlenmap : (L.map GenerateEmbeddings.joinWords).length = L.length :=
    List.length_map L GenerateEmbeddings.joinWords
  refine ⟨by simpa using hne', ?_, ?_, ?_, ?_⟩
  · intro i hi
    have hi' : i < L.length := by simpa using hi
    rw [List.get_map, hget i hi']
  · rw [hlenmap]
    exact hlast1
  · rw [hlenmap]
    apply List.take_of_length_le
    rw [List.length_drop]
    omega
  · intro j hj
    rw [hlenmap]
    obtain ⟨i, hik, h1, h2⟩ :=
      window_cover_arith (L.length - 1) w.length j hlast1 hlast2 hj
    have hpos := List.length_pos.mpr hne'
    exact ⟨i, by omega, h1, h2⟩

/-- Witness for C10 at the one-word text `"a"`. -/
theorem split_into_chunks_windows_witness :
    GenerateEmbeddings.split_into_chunks ("a".toList) 500 50 ≠ []
    ∧ (∀ i (hi : i < (GenerateEmbeddings.split_into_chunks ("a".toList) 500 50).length),
        (GenerateEmbeddings.split_into_chunks ("a".toList) 500 50).get ⟨i, hi⟩
          = GenerateEmbeddings.joinWords
              (((GenerateEmbeddings.pyWords ("a".toList)).drop (450 * i)).take 500))
    ∧ 450 * ((GenerateEmbeddings.split_into_chunks ("a".toList) 500 50).length - 1)
        < (GenerateEmbeddings.pyWords ("a".toList)).length
    ∧ ((GenerateEmbeddings.pyWords ("a".toList)).drop
          (450 * ((GenerateEmbeddings.split_into_chunks ("a".toList) 500 50).length - 1))).take 500
        = (GenerateEmbeddings.pyWords ("a".toList)).drop
          (450 * ((GenerateEmbeddings.split_into_chunks ("a".toList) 500 50).length - 1))
    ∧ (∀ j < (GenerateEmbeddings.pyWords ("a".toList)).length,
        ∃ i < (GenerateEmbeddings.split_into_chunks ("a".toList) 500 50).length,
          450 * i ≤ j ∧ j < 450 * i + 500) :=
  split_into_chunks_windows ("a".toList) (by decide)

/-! ## C3 / C4: URL normalization -/

theorem dropWhile_all_false (p : Char → Bool) (s : List Char)
    (h : ∀ c ∈ s, p c = false) : s.dropWhile p = s := by
  cases s with
  | nil => rfl
  | cons c rest =>
    rw [List.dropWhile_cons, h c (List.mem_cons_self c rest)]
    simp

theorem pyStrip_no_space (s : List Char) (h : ∀ c ∈ s, isPySpace c = false) :
    pyStrip s = s := by
  unfold pyStrip
  rw [dropWhile_all_false _ _ h,
      dropWhile_all_false _ _ (fun c hc => h c (List.mem_reverse.mp hc)),
      List.reverse_reverse]

theorem takeWhile_ne_append (x : Char) (l1 l2 : List Char) (h : ∀ c ∈ l1, c ≠ x) :
    (l1 ++ x :: l2).takeWhile (fun c => c ≠ x) = l1 := by
  induction l1 with
  | nil => simp
  | cons c rest ih =>
    have hc : c ≠ x := h c (List.mem_cons_self c rest)
    have ih' := ih (fun d hd => h d (List.mem_cons_of_mem c hd))
    rw [List.cons_append, List.takeWhile_cons]
    simp only [decide_not] at ih' ⊢
    simp [hc, ih']

theorem takeWhile_ne_of_mem (x : Char) (l : List Char) (h : x ∈ l) :
    l.takeWhile (fun c => c ≠ x) ≠ l := by
  intro heq
  rw [List.takeWhile_eq_self_iff] at heq
  have := heq x h
  simp at this

theorem contains_true_iff {α : Type} [BEq α] [LawfulBEq α] (x : α) (l : List α) :
    l.contains x = true ↔ x ∈ l :=
  List.elem_iff

theorem contains_false_iff {α : Type} [BEq α] [LawfulBEq α] (x : α) (l : List α) :
    l.contains x = false ↔ x ∉ l := by
  rw [← Bool.not_eq_true, not_iff_not]
  exact contains_true_iff x l

theorem stripFragment_no_hash (s : List Char) (h : '#' ∉ s) : stripFragment s = s := by
  rw [stripFragment, if_neg]
  rw [contains_true_iff]
  exact h

theorem stripFragment_append (p f : List Char) (hp : ∀ c ∈ p, c ≠ '#') :
    stripFragment (p ++ '#' :: f) = p := by
  rw [stripFragment, if_pos, takeWhile_ne_append _ _ _ hp]
  rw [contains_true_iff]
  exact List.mem_append_right p (List.mem_cons_self _ _)

theorem removeWww_cons_of_ne (c : Char) (rest : List Char) (h : c ≠ ':') :
    removeWww (c :: rest) = c :: removeWww rest := by
  rw [removeWww.eq_def]
  split
  · next heq => simp_all
  · next _ c2 rest2 _ heq => cases heq; rfl
  · simp_all

theorem removeWww_pattern_head (rest : List Char) :
    removeWww (':' :: '/' :: '/' :: 'w' :: 'w' :: 'w' :: '.' :: rest)
      = ':' :: '/' :: '/' :: removeWww rest := rfl

theorem removeWww_colon_slashes (rest : List Char)
    (h : ¬ (("www.".toList).isPrefixOf rest)) :
    removeWww (':' :: '/' :: '/' :: rest) = ':' :: '/' :: '/' :: removeWww rest := by
  rw [removeWww.eq_def]
  split
  · next heq => simp_all [List.isPrefixOf]
  · next _ c2 rest2 _ heq => cases heq; rfl
  · simp_all

theorem removeWww_append_no_colon (a b : List Char) (h : ∀ c ∈ a, c ≠ ':') :
    removeWww (a ++ b) = a ++ removeWww b := by
  induction a with
  | nil => rfl
  | cons c rest ih =>
    rw [List.cons_append,
        removeWww_cons_of_ne c (rest ++ b) (h c (List.mem_cons_self c rest)),
        ih (fun d hd => h d (List.mem_cons_of_mem c hd))]
    rfl

theorem removeWww_eq_self (s : List Char) (h : ∀ c ∈ s, c ≠ ':') :
    removeWww s = s := by
  have h0 : removeWww ([] : List Char) = [] := rfl
  have := removeWww_append_no_colon s [] h
  simpa [h0] using this

/-- URLs differing only in a fragment have the same normalized prefix. -/
theorem normPrefix_fragment (p f : List Char)
    (hp : ∀ c ∈ p, isPySpace c = false) (hf : ∀ c ∈ f, isPySpace c = false)
    (hhash : ∀ c ∈ pyLower p, c ≠ '#') :
    normPrefix (p ++ '#' :: f) = normPrefix p := by
  have hws : ∀ c ∈ p ++ '#' :: f, isPySpace c = false := by
    intro c hc
    rcases List.mem_append.mp hc with h1 | h1
    · exact hp c h1
    · rcases List.mem_cons.mp h1 with h2 | h2
      · subst h2; decide
      · exact hf c h2
  have hnohash : '#' ∉ pyLower p := fun hmem => hhash '#' hmem rfl
  have hlow : pyLower (p ++ '#' :: f) = pyLower p ++ '#' :: pyLower f := by
    simp only [pyLower, List.map_append, List.map_cons,
      show lowerChar '#' = '#' from by decide]
  rw [normPrefix, normPrefix, pyStrip_no_space _ hws, pyStrip_no_space _ hp, hlow,
      stripFragment_append _ _ hhash, stripFragment_no_hash _ hnohash]

/-- URLs differing only in one trailing slash have the same normalized
prefix (provided the rest does not itself end in a slash). -/
theorem normPrefix_slash (p : List Char)
    (hp : ∀ c ∈ p, isPySpace c = false)
    (hhash : ∀ c ∈ pyLower p, c ≠ '#')
    (hsl : (pyLower p).getLast? ≠ some '/') :
    normPrefix (p ++ ['/']) = normPrefix p := by
  have hws : ∀ c ∈ p ++ ['/'], isPySpace c = false := by
    intro c hc
    rcases List.mem_append.mp hc with h1 | h1
    · exact hp c h1
    · simp only [List.mem_singleton] at h1
      subst h1; decide
  have hlow : pyLower (p ++ ['/']) = pyLower p ++ ['/'] := by
    simp only [pyLower, List.map_append, List.map_cons, List.map_nil,
      show lowerChar '/' = '/' from by decide]
  have hnh1 : '#' ∉ pyLower p ++ ['/'] := by
    intro hmem
    rcases List.mem_append.mp hmem with h1 | h1
    · exact hhash '#' h1 rfl
    · simp at h1
  have hnh2 : '#' ∉ pyLower p := fun hmem => hhash '#' hmem rfl
  have hlast : (pyLower p ++ ['/']).getLast? = some '/' := by
    rw [List.getLast?_append]; rfl
  rw [normPrefix, normPrefix, pyStrip_no_space _ hws, pyStrip_no_space _ hp, hlow,
      stripFragment_no_hash _ hnh1, stripFragment_no_hash _ hnh2,
      stripTrailingSlash, stripTrailingSlash, if_pos hlast, if_neg hsl,
      List.dropLast_concat]

/-- URLs differing only in a leading `www.` host label have the same
normalized prefix. -/
theorem normPrefix_www (s r : List Char)
    (hsw : ∀ c ∈ s, isPySpace c = false) (hrw : ∀ c ∈ r, isPySpace c = false)
    (hsh : ∀ c ∈ pyLower s, c ≠ '#') (hrh : ∀ c ∈ pyLower r, c ≠ '#')
    (hsc : ∀ c ∈ pyLower s, c ≠ ':') (_hrc : ∀ c ∈ pyLower r, c ≠ ':')
    (hrne : r ≠ []) (hrlast : (pyLower r).getLast? ≠ some '/')
    (hrwww : ¬ (("www.".toList).isPrefixOf (pyLower r))) :
    normPrefix (s ++ "://www.".toList ++ r) = normPrefix (s ++ "://".toList ++ r) := by
  have hmid7 : ∀ c ∈ "://www.".toList, isPySpace c = false := by decide
  have hmid3 : ∀ c ∈ "://".toList, isPySpace c = false := by decide
  have hmid7h : ∀ c ∈ "://www.".toList, c ≠ '#' := by decide
  have hmid3h : ∀ c ∈ "://".toList, c ≠ '#' := by decide
  have hws1 : ∀ c ∈ s ++ "://www.".toList ++ r, isPySpace c = false := by
    intro c hc
    rcases List.mem_append.mp hc with h1 | h1
    · rcases List.mem_append.mp h1 with h2 | h2
      · exact hsw c h2
      · exact hmid7 c h2
    · exact hrw c h1
  have hws2 : ∀ c ∈ s ++ "://".toList ++ r, isPySpace c = false := by
    intro c hc
    rcases List.mem_append.mp hc with h1 | h1
    · rcases List.mem_append.mp h1 with h2 | h2
      · exact hsw c h2
      · exact hmid3 c h2
    · exact hrw c h1
  have hlow7 : pyLower ("://www.".toList) = "://www.".toList := by decide
  have hlow3 : pyLower ("://".toList) = "://".toList := by decide
  have hlowapp : ∀ a b : List Char, pyLower (a ++ b) = pyLower a ++ pyLower b := by
    intro a b
    simp [pyLower]
  have hrlne : pyLower r ≠ [] := by
    simpa [pyLower] using hrne
  have hA7 : '#' ∉ (pyLower s ++ "://www.".toList) ++ pyLower r := by
    intro hmem
    rcases List.mem_append.mp hmem with h1 | h1
    · rcases List.mem_append.mp h1 with h2 | h2
      · exact hsh '#' h2 rfl
      · exact hmid7h '#' h2 rfl
    · exact hrh '#' h1 rfl
  have hA3 : '#' ∉ (pyLower s ++ "://".toList) ++ pyLower r := by
    intro hmem
    rcases List.mem_append.mp hmem with h1 | h1
    · rcases List.mem_append.mp h1 with h2 | h2
      · exact hsh '#' h2 rfl
      · exact hmid3h '#' h2 rfl
    · exact hrh '#' h1 rfl
  have hnlast : ∀ A : List Char, ¬ ((A ++ pyLower r).getLast? = some '/') := by
    intro A h
    rw [List.getLast?_append] at h
    cases hgl : (pyLower r).getLast? with
    | none =>
      have h2 := List.getLast?_isSome.mpr hrlne
      rw [hgl] at h2
      simp at h2
    | some y =>
      rw [hgl] at h
      have : (some y).or A.getLast? = some y := rfl
      rw [this] at h
      rw [← hgl] at h
      exact hrlast h
  have hslash : ∀ A : List Char,
      stripTrailingSlash (A ++ pyLower r) = A ++ pyLower r := by
    intro A
    rw [stripTrailingSlash, if_neg (hnlast A)]
  rw [normPrefix, normPrefix]
  rw [pyStrip_no_space _ hws1, pyStrip_no_space _ hws2]
  rw [hlowapp, hlowapp, hlowapp, hlowapp]
  rw [hlow7, hlow3]
  rw [stripFragment_no_hash _ hA7, stripFragment_no_hash _ hA3]
  rw [hslash, hslash]
  rw [List.append_assoc, List.append_assoc]
  rw [removeWww_append_no_colon _ _ hsc, removeWww_append_no_colon _ _ hsc]
  rw [show "://www.".toList = [':', '/', '/', 'w', 'w', 'w', '.'] from rfl,
      show "://".toList = [':', '/', '/'] from rfl]
  rw [show ([':', '/', '/', 'w', 'w', 'w', '.'] ++ pyLower r)
        = ':' :: '/' :: '/' :: 'w' :: 'w' :: 'w' :: '.' :: pyLower r from rfl]
  rw [removeWww_pattern_head]
  rw [show ([':', '/', '/'] ++ pyLower r) = ':' :: '/' :: '/' :: pyLower r from rfl]
  rw [removeWww_colon_slashes _ hrwww]

/-! ## C5 / C6 / C7: crawl traversal properties -/

open EnhancedQueryScraper

theorem foldl_preserve {α β : Type} (P : α → Prop) (f : α → β → α)
    (hf : ∀ a b, P a → P (f a b)) : ∀ (l : List β) (a : α), P a → P (l.foldl f a) := by
  intro l
  induction l with
  | nil => intro a ha; exact ha
  | cons b rest ih =>
    intro a ha
    exact ih (f a b) (hf a b ha)

/-- `enqueueLinks` only appends to the queue. -/
theorem enqueueLinks_extends :
    ∀ (links : List LinkInfo) (q v : List (List Char)),
      ∃ s, (enqueueLinks links q v).1 = q ++ s := by
  intro links
  induction links with
  | nil => intro q v; exact ⟨[], by simp [enqueueLinks]⟩
  | cons l ls ih =>
    intro q v
    rw [enqueueLinks]
    by_cases hc : v.contains (normalize_url l.url) = true
    · simp only [hc, if_true]
      exact ih q v
    · simp only [hc, Bool.false_eq_true, if_false]
      obtain ⟨s, hs⟩ := ih (q ++ [l.url]) (normalize_url l.url :: v)
      exact ⟨[l.url] ++ s, by rw [hs, List.append_assoc]⟩

/-- The enqueue loop preserves the queue/trace invariant: normalized forms
stay pairwise distinct, everything enqueued is marked visited, and the
visited set only grows. -/
theorem enqueueLinks_spec :
    ∀ (links : List LinkInfo) (q v pre : List (List Char)),
      ((pre ++ q).map normalize_url).Nodup →
      (∀ u ∈ pre ++ q, normalize_url u ∈ v) →
      ((pre ++ (enqueueLinks links q v).1).map normalize_url).Nodup
      ∧ (∀ u ∈ pre ++ (enqueueLinks links q v).1,
          normalize_url u ∈ (enqueueLinks links q v).2)
      ∧ (∀ x ∈ v, x ∈ (enqueueLinks links q v).2) := by
  intro links
  induction links with
  | nil =>
    intro q v pre h1 h2
    exact ⟨h1, h2, fun x hx => hx⟩
  | cons l ls ih =>
    intro q v pre h1 h2
    rw [enqueueLinks]
    by_cases hc : v.contains (normalize_url l.url) = true
    · simp only [hc, if_true]
      exact ih q v pre h1 h2
    · simp only [hc, Bool.false_eq_true, if_false]
      have hnotv : normalize_url l.url ∉ v := (contains_false_iff _ _).mp (by simpa using hc)
      have hnotin : normalize_url l.url ∉ (pre ++ q).map normalize_url := by
        intro hmem
        obtain ⟨u, hu, hequ⟩ := List.mem_map.mp hmem
        exact hnotv (hequ ▸ h2 u hu)
      have h1' : ((pre ++ (q ++ [l.url])).map normalize_url).Nodup := by
        rw [← List.append_assoc, List.map_append, List.nodup_append]
        refine ⟨by simpa using h1, List.nodup_singleton _, ?_⟩
        intro x hx hy
        simp only [List.map_cons, List.map_nil, List.mem_singleton] at hy
        exact hnotin (hy ▸ hx)
      have h2' : ∀ u ∈ pre ++ (q ++ [l.url]),
          normalize_url u ∈ normalize_url l.url :: v := by
        intro u hu
        rw [← List.append_assoc] at hu
        rcases List.mem_append.mp hu with hu1 | hu1
        · exact List.mem_cons_of_mem _ (h2 u hu1)
        · simp only [List.mem_singleton] at hu1
          subst hu1
          exact List.mem_cons_self _ _
      obtain ⟨g1, g2, g3⟩ := ih (q ++ [l.url]) (normalize_url l.url :: v) pre h1' h2'
      exact ⟨g1, g2, fun x hx => g3 x (List.mem_cons_of_mem _ hx)⟩

/-- Every discovered link whose normalized form is unseen gets a
representative with the same normalized form into the queue: no cap is
applied. -/
theorem enqueueLinks_covers :
    ∀ (links : List LinkInfo) (q v : List (List Char)) (l : LinkInfo),
      l ∈ links → v.contains (normalize_url l.url) = false →
      ∃ u ∈ (enqueueLinks links q v).1, normalize_url u = normalize_url l.url := by
  intro links
  induction links with
  | nil =>
    intro q v l hl
    cases hl
  | cons l0 ls ih =>
    intro q v l hl hc
    rw [enqueueLinks]
    by_cases hc0 : v.contains (normalize_url l0.url) = true
    · simp only [hc0, if_true]
      rcases List.mem_cons.mp hl with hl1 | hl1
      · subst hl1
        rw [hc0] at hc
        cases hc
      · exact ih q v l hl1 hc
    · simp only [hc0, Bool.false_eq_true, if_false]
      rcases List.mem_cons.mp hl with hl1 | hl1
      · subst hl1
        obtain ⟨s, hs⟩ := enqueueLinks_extends ls (q ++ [l.url]) (normalize_url l.url :: v)
        refine ⟨l.url, ?_, rfl⟩
        rw [hs, List.append_assoc]
        simp
      · by_cases hcn : (normalize_url l0.url :: v).contains (normalize_url l.url) = true
        · have : normalize_url l.url = normalize_url l0.url := by
            have hmem := (contains_true_iff _ _).mp hcn
            rcases List.mem_cons.mp hmem with he | he
            · exact he
            · exact absurd he ((contains_false_iff _ _).mp hc)
          obtain ⟨s, hs⟩ := enqueueLinks_extends ls (q ++ [l0.url]) (normalize_url l0.url :: v)
          refine ⟨l0.url, ?_, this.symm⟩
          rw [hs, List.append_assoc]
          simp
        · exact ih (q ++ [l0.url]) (normalize_url l0.url :: v) l hl1 (by simpa using hcn)

/-- One BFS iteration preserves the invariant. -/
theorem bfsStep_inv (web : Web) (st : CrawlState) (h : BfsInv st) :
    BfsInv (bfsStep web st) := by
  obtain ⟨h1, h2⟩ := h
  rcases hq : st.queue with _ | ⟨current, rest⟩
  · simpa [bfsStep, hq] using ⟨h1, h2⟩
  · have hflat : (st.fetched ++ [current]) ++ rest = st.fetched ++ st.queue := by
      rw [hq, List.append_assoc]
      rfl
    cases hw : web current with
    | ok title text links =>
      have hpre1 : (((st.fetched ++ [current]) ++ rest).map normalize_url).Nodup := by
        rw [hflat]; exact h1
      have hpre2 : ∀ u ∈ (st.fetched ++ [current]) ++ rest,
          normalize_url u ∈ st.visited := by
        rw [hflat]; exact h2
      obtain ⟨g1, g2, g3⟩ :=
        enqueueLinks_spec links rest st.visited (st.fetched ++ [current]) hpre1 hpre2
      simp only [bfsStep, hq, hw]
      exact ⟨g1, g2⟩
    | httpError code =>
      simp only [bfsStep, hq, hw]
      constructor
      · rw [hflat]; exact h1
      · intro u hu
        rw [hflat] at hu
        exact h2 u hu
    | netError =>
      simp only [bfsStep, hq, hw]
      constructor
      · rw [hflat]; exact h1
      · intro u hu
        rw [hflat] at hu
        exact h2 u hu

/-- The BFS loop preserves the invariant. -/
theorem bfsLoop_inv (web : Web) (maxPages : Option Nat) :
    ∀ (fuel : Nat) (st : CrawlState), BfsInv st → BfsInv (bfsLoop web maxPages fuel st) := by
  intro fuel
  induction fuel with
  | zero => intro st h; exact h
  | succ fuel ih =>
    intro st h
    rw [bfsLoop]
    by_cases h1 : st.queue = []
    · rw [if_pos h1]; exact h
    · rw [if_neg h1]
      by_cases h2 : budgetReached maxPages st.scraped.length = true
      · simp only [h2, if_true]; exact h
      · simp only [h2, Bool.false_eq_true, if_false]
        exact ih _ (bfsStep_inv web st h)

/-- The DFS recursion preserves the invariant: each URL is fetched only
after its (previously unseen) normalized form is put in `visited`. -/
theorem dfs_rec_inv (web : Web) (maxPages : Option Nat) (maxDepth : Nat) :
    ∀ (fuel : Nat) (url : List Char) (depth : Nat) (st : DfsState),
      DfsInv st → DfsInv (crawl_website_dfs_rec web maxPages maxDepth fuel url depth st) := by
  intro fuel
  induction fuel with
  | zero => intro url depth st h; exact h
  | succ fuel ih =>
    intro url depth st h
    rw [crawl_website_dfs_rec]
    by_cases h1 : (budgetReached maxPages st.scraped.length || decide (depth > maxDepth)) = true
    · simp only [h1, if_true]; exact h
    · simp only [h1, Bool.false_eq_true, if_false]
      by_cases h2 : st.visited.contains (normalize_url url) = true
      · simp only [h2, if_true]; exact h
      · simp only [h2, Bool.false_eq_true, if_false]
        obtain ⟨hn, hv⟩ := h
        have hnotv : normalize_url url ∉ st.visited :=
          (contains_false_iff _ _).mp (by simpa using h2)
        have hst1 : DfsInv
            { st with visited := normalize_url url :: st.visited,
                      fetched := st.fetched ++ [url] } := by
          constructor
          · rw [List.map_append, List.nodup_append]
            refine ⟨hn, List.nodup_singleton _, ?_⟩
            intro x hx hy
            simp only [List.map_cons, List.map_nil, List.mem_singleton] at hy
            obtain ⟨u, hu, hequ⟩ := List.mem_map.mp hx
            apply hnotv
            rw [← hy, ← hequ]
            exact hv u hu
          · intro u hu
            rcases List.mem_append.mp hu with hu1 | hu1
            · exact List.mem_cons_of_mem _ (hv u hu1)
            · simp only [List.mem_singleton] at hu1
              subst hu1
              exact List.mem_cons_self _ _
        cases hw : web url with
        | ok title text links =>
          simp only [hw]
          apply foldl_preserve DfsInv _ ?hstep links
          case hstep =>
            intro s l hs
            by_cases hb : budgetReached maxPages s.scraped.length = true
            · simpa [hb] using hs
            · simp only [hb, Bool.false_eq_true, if_false]
              exact ih l.url (depth + 1) s hs
          constructor
          · exact hst1.1
          · exact hst1.2
        | httpError code =>
          simp only [hw]
          exact hst1
        | netError =>
          simp only [hw]
          exact hst1

theorem insertDesc_perm (x : QItem) : ∀ l : List QItem, (insertDesc x l).Perm (x :: l) := by
  intro l
  induction l with
  | nil => exact List.Perm.refl _
  | cons y ys ih =>
    rw [insertDesc]
    by_cases hxy : x.score > y.score
    · rw [if_pos hxy]
    · rw [if_neg hxy]
      exact (ih.cons y).trans (List.Perm.swap x y ys)

theorem sortDesc_perm : ∀ l : List QItem, (sortDesc l).Perm l := by
  intro l
  induction l with
  | nil => exact List.Perm.refl _
  | cons x xs ih =>
    rw [sortDesc]
    exact (insertDesc_perm x (sortDesc xs)).trans (ih.cons x)

/-- The priority enqueue loop (same filter as BFS, at `QItem` level)
preserves the invariant. -/
theorem enqueuePriority_spec :
    ∀ (links : List LinkInfo) (q : List QItem) (v pre : List (List Char)),
      ((pre ++ q.map QItem.url).map normalize_url).Nodup →
      (∀ u ∈ pre ++ q.map QItem.url, normalize_url u ∈ v) →
      ((pre ++ ((enqueuePriority links q v).1).map QItem.url).map normalize_url).Nodup
      ∧ (∀ u ∈ pre ++ ((enqueuePriority links q v).1).map QItem.url,
          normalize_url u ∈ (enqueuePriority links q v).2)
      ∧ (∀ x ∈ v, x ∈ (enqueuePriority links q v).2) := by
  intro links
  induction links with
  | nil =>
    intro q v pre h1 h2
    exact ⟨h1, h2, fun x hx => hx⟩
  | cons l ls ih =>
    intro q v pre h1 h2
    rw [enqueuePriority]
    by_cases hc : v.contains (normalize_url l.url) = true
    · simp only [hc, if_true]
      exact ih q v pre h1 h2
    · simp only [hc, Bool.false_eq_true, if_false]
      have hnotv : normalize_url l.url ∉ v := (contains_false_iff _ _).mp (by simpa using hc)
      have hnotin : normalize_url l.url ∉ (pre ++ q.map QItem.url).map normalize_url := by
        intro hmem
        obtain ⟨u, hu, hequ⟩ := List.mem_map.mp hmem
        exact hnotv (hequ ▸ h2 u hu)
      have hmapapp : (q ++ [(⟨l.score, l.url, l.keywords⟩ : QItem)]).map QItem.url
          = q.map QItem.url ++ [l.url] := by
        rw [List.map_append]
        rfl
      have h1' : ((pre ++ ((q ++ [(⟨l.score, l.url, l.keywords⟩ : QItem)]).map QItem.url)).map
          normalize_url).Nodup := by
        rw [hmapapp, ← List.append_assoc, List.map_append, List.nodup_append]
        refine ⟨by simpa using h1, List.nodup_singleton _, ?_⟩
        intro x hx hy
        simp only [List.map_cons, List.map_nil, List.mem_singleton] at hy
        exact hnotin (hy ▸ hx)
      have h2' : ∀ u ∈ pre ++ ((q ++ [(⟨l.score, l.url, l.keywords⟩ : QItem)]).map QItem.url),
          normalize_url u ∈ normalize_url l.url :: v := by
        intro u hu
        rw [hmapapp, ← List.append_assoc] at hu
        rcases List.mem_append.mp hu with hu1 | hu1
        · exact List.mem_cons_of_mem _ (h2 u hu1)
        · simp only [List.mem_singleton] at hu1
          subst hu1
          exact List.mem_cons_self _ _
      obtain ⟨g1, g2, g3⟩ := ih (q ++ [(⟨l.score, l.url, l.keywords⟩ : QItem)])
        (normalize_url l.url :: v) pre h1' h2'
      exact ⟨g1, g2, fun x hx => g3 x (List.mem_cons_of_mem _ hx)⟩

/-- Sorting the queue does not disturb the invariant. -/
theorem prInv_sortDesc (st : PriorityState) (h : PrInv st) :
    PrInv { st with pq := sortDesc st.pq } := by
  obtain ⟨h1, h2⟩ := h
  have hperm : (st.fetched ++ (sortDesc st.pq).map QItem.url).Perm
      (st.fetched ++ st.pq.map QItem.url) :=
    List.Perm.append_left st.fetched ((sortDesc_perm st.pq).map QItem.url)
  constructor
  · show ((st.fetched ++ (sortDesc st.pq).map QItem.url).map normalize_url).Nodup
    exact ((hperm.map normalize_url).nodup_iff).mpr h1
  · show ∀ u ∈ st.fetched ++ (sortDesc st.pq).map QItem.url,
      normalize_url u ∈ st.visited
    intro u hu
    exact h2 u (hperm.mem_iff.mp hu)

/-- One priority-crawl iteration preserves the invariant. -/
theorem priorityStep_inv (web : Web) (st : PriorityState) (h : PrInv st) :
    PrInv (priorityStep web st) := by
  obtain ⟨h1, h2⟩ := h
  rcases hq : st.pq with _ | ⟨item, rest⟩
  · simpa [priorityStep, hq] using ⟨h1, h2⟩
  · have hflat : (st.fetched ++ [item.url]) ++ rest.map QItem.url
        = st.fetched ++ st.pq.map QItem.url := by
      rw [hq, List.map_cons, List.append_assoc]
      rfl
    cases hw : web item.url with
    | ok title text links =>
      have hpre1 : (((st.fetched ++ [item.url]) ++ rest.map QItem.url).map
          normalize_url).Nodup := by
        rw [hflat]; exact h1
      have hpre2 : ∀ u ∈ (st.fetched ++ [item.url]) ++ rest.map QItem.url,
          normalize_url u ∈ st.visited := by
        rw [hflat]; exact h2
      obtain ⟨g1, g2, g3⟩ :=
        enqueuePriority_spec links rest st.visited (st.fetched ++ [item.url]) hpre1 hpre2
      simp only [priorityStep, hq, hw]
      exact prInv_sortDesc
        { pq := (enqueuePriority links rest st.visited).1,
          visited := (enqueuePriority links rest st.visited).2,
          scraped := st.scraped ++ [⟨item.url, title, text⟩],
          fetched := st.fetched ++ [item.url] } ⟨g1, g2⟩
    | httpError code =>
      simp only [priorityStep, hq, hw]
      constructor
      · rw [hflat]; exact h1
      · intro u hu
        rw [hflat] at hu
        exact h2 u hu
    | netError =>
      simp only [priorityStep, hq, hw]
      constructor
      · rw [hflat]; exact h1
      · intro u hu
        rw [hflat] at hu
        exact h2 u hu

/-- The priority loop preserves the invariant. -/
theorem priorityLoop_inv (web : Web) (maxPages : Option Nat) :
    ∀ (fuel : Nat) (st : PriorityState),
      PrInv st → PrInv (priorityLoop web maxPages fuel st) := by
  intro fuel
  induction fuel with
  | zero => intro st h; exact h
  | succ fuel ih =>
    intro st h
    rw [priorityLoop]
    by_cases h1 : st.pq = []
    · rw [if_pos h1]; exact h
    · rw [if_neg h1]
      by_cases h2 : budgetReached maxPages st.scraped.length = true
      · simp only [h2, if_true]; exact h
      · simp only [h2, Bool.false_eq_true, if_false]
        exact ih _ (priorityStep_inv web st h)

/-- C5.  Under each of the three traversal strategies, at most one fetch is
ever issued per normalized URL: the fetch trace of a whole crawl has
pairwise-distinct normalized forms (once a normalized URL enters the
traversal's visited set at enqueue/visit time, no URL with that normalized
form is fetched again). -/
theorem crawl_fetch_at_most_once :
    ∀ (web : Web) (start : List Char) (maxPages : Option Nat) (fuel : Nat),
      (((crawl_website_bfs web start maxPages fuel).fetched).map normalize_url).Nodup
      ∧ (((crawl_website_dfs web start maxPages fuel).fetched).map normalize_url).Nodup
      ∧ (((crawl_website_priority web start maxPages fuel).fetched).map normalize_url).Nodup := by
  intro web start maxPages fuel
  refine ⟨?_, ?_, ?_⟩
  · have hinit : BfsInv (bfsInit start) := by
      constructor
      · simp [bfsInit]
      · intro u hu
        simp only [bfsInit, List.nil_append, List.mem_singleton] at hu
        subst hu
        simp [bfsInit]
    obtain ⟨h1, h2⟩ := bfsLoop_inv web maxPages fuel _ hinit
    rw [List.map_append, List.nodup_append] at h1
    exact h1.1
  · have hinit : DfsInv ⟨[], [], []⟩ := ⟨List.nodup_nil, by intro u hu; cases hu⟩
    exact (dfs_rec_inv web maxPages 10 fuel start 0 _ hinit).1
  · rw [crawl_website_priority]
    cases hw : web start with
    | ok title text links =>
      have hpre1 : ((([start] : List (List Char))
          ++ ([] : List QItem).map QItem.url).map normalize_url).Nodup := by simp
      have hpre2 : ∀ u ∈ ([start] : List (List Char)) ++ ([] : List QItem).map QItem.url,
          normalize_url u ∈ [normalize_url start] := by
        intro u hu
        simp only [List.map_nil, List.append_nil, List.mem_singleton] at hu
        subst hu
        simp
      obtain ⟨g1, g2, g3⟩ :=
        enqueuePriority_spec links [] [normalize_url start] [start] hpre1 hpre2
      have hinit := prInv_sortDesc
        { pq := (enqueuePriority links [] [normalize_url start]).1,
          visited := (enqueuePriority links [] [normalize_url start]).2,
          scraped := [⟨start, title, text⟩], fetched := [start] } ⟨g1, g2⟩
      obtain ⟨h1, h2⟩ := priorityLoop_inv web maxPages fuel _ hinit
      rw [List.map_append, List.nodup_append] at h1
      exact h1.1
    | httpError code => simp
    | netError => simp

/-- C6 counterexample: in a BFS crawl with a page budget of 2, the start page
of `capWeb` discovers six links; after the first loop iteration all six are
enqueued, although `remaining_budget × 3 = (2 - 1) × 3 = 3` and the claimed
minimum cap is 5 — the code applies no cap at all. -/
theorem bfs_link_cap_counterexample :
    ((bfsStep capWeb (bfsInit ("http://s.com".toList))).queue).length = 6
    ∧ ((bfsStep capWeb (bfsInit ("http://s.com".toList))).scraped).length = 1
    ∧ ¬ (((bfsStep capWeb (bfsInit ("http://s.com".toList))).queue).length
          ≤ max 5 ((2 - ((bfsStep capWeb (bfsInit ("http://s.com".toList))).scraped).length) * 3)) := by
  refine ⟨by decide, by decide, by decide⟩

/-- C6 amended.  `crawl_website_bfs` applies no cap when enqueuing discovered
links: for every dequeued page, *every* link returned by
`extract_and_prioritize_links` whose normalized form is not yet visited gets
a URL with its normalized form into the queue, regardless of the remaining
page budget. -/
theorem bfs_enqueues_all_unseen :
    ∀ (web : Web) (st : CrawlState) (current : List Char) (rest : List (List Char))
      (title text : List Char) (links : List LinkInfo) (l : LinkInfo),
      st.queue = current :: rest →
      web current = FetchOutcome.ok title text links →
      l ∈ links →
      st.visited.contains (normalize_url l.url) = false →
      ∃ u ∈ (bfsStep web st).queue, normalize_url u = normalize_url l.url := by
  intro web st current rest title text links l hq hw hl hc
  simp only [bfsStep, hq, hw]
  exact enqueueLinks_covers links rest st.visited l hl hc

/-- Witness for C6 amended: the sixth (lowest-scored) link of `capWeb`'s
start page is enqueued even though the remaining budget would cap it out. -/
theorem bfs_enqueues_all_unseen_witness :
    ∃ u ∈ (bfsStep capWeb (bfsInit ("http://s.com".toList))).queue,
      normalize_url u = normalize_url ("http://s.com/p6".toList) :=
  bfs_enqueues_all_unseen capWeb _ _ _ _ _ _
    ⟨"http://s.com/p6".toList, [], 65, []⟩ rfl rfl (by decide) (by decide)

/-- C7 counterexample: on a web where every fetch raises a transient network
error, a BFS crawl of the start URL issues exactly ONE fetch attempt — not
the claimed 3 attempts (1 + up to 2 retries with 0.5 s × attempt backoff);
the fetch layer has no retry loop at all. -/
theorem fetch_retry_counterexample :
    (crawl_website_bfs downWeb ("http://s.com".toList) none 5).fetched.length = 1
    ∧ ¬ ((crawl_website_bfs downWeb ("http://s.com".toList) none 5).fetched.length = 3) := by
  refine ⟨by decide, by decide⟩

/-- C7 amended.  Every page fetch during BFS and priority crawling is
attempted exactly once: on a transient network error as well as on a non-2xx
HTTP status (`raise_for_status`), the dequeued URL is given up immediately —
one fetch recorded, nothing re-enqueued, no backoff — and traversal
continues with the remaining queue. -/
theorem fetch_single_attempt_no_retry :
    (∀ (web : Web) (st : CrawlState) (current : List Char) (rest : List (List Char)),
      st.queue = current :: rest →
      (web current = FetchOutcome.netError
        ∨ ∃ code, web current = FetchOutcome.httpError code) →
      bfsStep web st = { st with queue := rest, fetched := st.fetched ++ [current] })
    ∧ (∀ (web : Web) (st : PriorityState) (item : QItem) (rest : List QItem),
      st.pq = item :: rest →
      (web item.url = FetchOutcome.netError
        ∨ ∃ code, web item.url = FetchOutcome.httpError code) →
      priorityStep web st = { st with pq := rest, fetched := st.fetched ++ [item.url] }) := by
  constructor
  · intro web st current rest hq hfail
    rcases hfail with hw | ⟨code, hw⟩ <;> simp [bfsStep, hq, hw]
  · intro web st item rest hq hfail
    rcases hfail with hw | ⟨code, hw⟩ <;> simp [priorityStep, hq, hw]

/-- Witness for C7 amended, at a concrete dead web and concrete states. -/
theorem fetch_single_attempt_no_retry_witness :
    bfsStep downWeb (bfsInit ("http://s.com".toList))
      = { bfsInit ("http://s.com".toList) with
          queue := [],
          fetched := (bfsInit ("http://s.com".toList)).fetched ++ ["http://s.com".toList] }
    ∧ priorityStep downWeb
        { pq := [⟨10, "http://s.com".toList, []⟩], visited := [], scraped := [], fetched := [] }
      = { pq := [], visited := [], scraped := [],
          fetched := [] ++ ["http://s.com".toList] } :=
  ⟨fetch_single_attempt_no_retry.1 downWeb _ _ _ rfl (Or.inl rfl),
   fetch_single_attempt_no_retry.2 downWeb
     { pq := [⟨10, "http://s.com".toList, []⟩], visited := [], scraped := [], fetched := [] }
     _ _ rfl (Or.inl rfl)⟩

/-- C3 counterexample: `"http://a.com/page?id=1&ref=x"` and
`"http://a.com/page?id=1"` differ only in the tracking parameter `ref=x`, yet
normalize differently (the code drops the *entire* query string when a
tracking token appears); and for `"http://a.com/refunds?id=1"` the query
string contains no tracking parameter, yet is dropped, because the token
`"ref"` occurs as a substring of the path. -/
theorem normalize_url_counterexample :
    EnhancedQueryScraper.normalize_url ("http://a.com/page?id=1&ref=x".toList)
      ≠ EnhancedQueryScraper.normalize_url ("http://a.com/page?id=1".toList)
    ∧ EnhancedQueryScraper.normalize_url ("http://a.com/refunds?id=1".toList)
      = "http://a.com/refunds".toList := by
  constructor
  · decide
  · decide

/-- C3 amended.  `normalize_url` returns identical strings for URL pairs that
differ only in fragment, one trailing slash, or a leading `www.` host label
(under the well-formedness side conditions of realistic URLs: no whitespace,
no `'#'` in the kept part, the kept part not ending in `'/'`, no colon in
host/path, rest not beginning with another `www.`); and the query string is
dropped *entirely* exactly when a `'?'` is present and one of the tracking
tokens `utm_, fbclid, gclid, ref, source, campaign` occurs as a substring
anywhere in the normalized-prefix URL — otherwise the full query string is
preserved. -/
theorem normalize_url_amended :
    (∀ p f : List Char,
      (∀ c ∈ p, isPySpace c = false) → (∀ c ∈ f, isPySpace c = false) →
      (∀ c ∈ pyLower p, c ≠ '#') →
      EnhancedQueryScraper.normalize_url (p ++ '#' :: f)
        = EnhancedQueryScraper.normalize_url p)
    ∧ (∀ p : List Char,
      (∀ c ∈ p, isPySpace c = false) →
      (∀ c ∈ pyLower p, c ≠ '#') →
      (pyLower p).getLast? ≠ some '/' →
      EnhancedQueryScraper.normalize_url (p ++ ['/'])
        = EnhancedQueryScraper.normalize_url p)
    ∧ (∀ s r : List Char,
      (∀ c ∈ s, isPySpace c = false) → (∀ c ∈ r, isPySpace c = false) →
      (∀ c ∈ pyLower s, c ≠ '#') → (∀ c ∈ pyLower r, c ≠ '#') →
      (∀ c ∈ pyLower s, c ≠ ':') → (∀ c ∈ pyLower r, c ≠ ':') →
      r ≠ [] → (pyLower r).getLast? ≠ some '/' →
      ¬ (("www.".toList).isPrefixOf (pyLower r)) →
      EnhancedQueryScraper.normalize_url (s ++ "://www.".toList ++ r)
        = EnhancedQueryScraper.normalize_url (s ++ "://".toList ++ r))
    ∧ (∀ u : List Char,
      ((normPrefix u).contains '?' = false →
        EnhancedQueryScraper.normalize_url u = normPrefix u)
      ∧ ((normPrefix u).contains '?' = true →
          EnhancedQueryScraper.tracking_params.any
              (fun p => containsSub p (normPrefix u)) = true →
          EnhancedQueryScraper.normalize_url u
            = (normPrefix u).takeWhile (fun c => c ≠ '?'))
      ∧ ((normPrefix u).contains '?' = true →
          EnhancedQueryScraper.tracking_params.any
              (fun p => containsSub p (normPrefix u)) = false →
          EnhancedQueryScraper.normalize_url u = normPrefix u)) := by
  refine ⟨?_, ?_, ?_, ?_⟩
  · intro p f h1 h2 h3
    rw [EnhancedQueryScraper.normalize_url, EnhancedQueryScraper.normalize_url,
        normPrefix_fragment p f h1 h2 h3]
  · intro p h1 h2 h3
    rw [EnhancedQueryScraper.normalize_url, EnhancedQueryScraper.normalize_url,
        normPrefix_slash p h1 h2 h3]
  · intro s r h1 h2 h3 h4 h5 h6 h7 h8 h9
    rw [EnhancedQueryScraper.normalize_url, EnhancedQueryScraper.normalize_url,
        normPrefix_www s r h1 h2 h3 h4 h5 h6 h7 h8 h9]
  · intro u
    refine ⟨?_, ?_, ?_⟩
    · intro h
      rw [EnhancedQueryScraper.normalize_url, queryStep, if_neg]
      rw [h]
      simp
    · intro h hA
      rw [EnhancedQueryScraper.normalize_url, queryStep, if_pos h, if_pos hA]
    · intro h hA
      rw [EnhancedQueryScraper.normalize_url, queryStep, if_pos h, if_neg]
      rw [hA]
      simp

/-- Witness for C3 amended: concrete instances of each of the four parts. -/
theorem normalize_url_amended_witness :
    EnhancedQueryScraper.normalize_url ("http://ex.com/a".toList ++ '#' :: "frag".toList)
      = EnhancedQueryScraper.normalize_url ("http://ex.com/a".toList)
    ∧ EnhancedQueryScraper.normalize_url ("http://ex.com/a".toList ++ ['/'])
      = EnhancedQueryScraper.normalize_url ("http://ex.com/a".toList)
    ∧ EnhancedQueryScraper.normalize_url
        ("http".toList ++ "://www.".toList ++ "ex.com/a".toList)
      = EnhancedQueryScraper.normalize_url ("http".toList ++ "://".toList ++ "ex.com/a".toList)
    ∧ EnhancedQueryScraper.normalize_url ("http://ex.com/a?id=1".toList)
      = normPrefix ("http://ex.com/a?id=1".toList) :=
  ⟨normalize_url_amended.1 _ _ (by decide) (by decide) (by decide),
   normalize_url_amended.2.1 _ (by decide) (by decide) (by decide),
   normalize_url_amended.2.2.1 _ _ (by decide) (by decide) (by decide) (by decide)
     (by decide) (by decide) (by decide) (by decide) (by decide),
   (normalize_url_amended.2.2.2 _).2.2 (by decide) (by decide)⟩

/-- C4 counterexample: on `"http://a.com/p?campaign=1"` the scraper's
`normalize_url` drops the query (its tracking list contains `"campaign"`)
while the JSON handler's preserves it (its list has only
`utm_, fbclid, gclid, ref=`), so the two dedup keys disagree. -/
theorem normalize_url_handler_divergence :
    EnhancedQueryScraper.normalize_url ("http://a.com/p?campaign=1".toList)
      ≠ JSONHandler.normalize_url ("http://a.com/p?campaign=1".toList) := by
  decide

/-- C4 amended.  The two `normalize_url` implementations share the same
lower-case / fragment / trailing-slash / `www.` steps, so they agree on every
URL whose normalized prefix contains no `'?'`; when a `'?'` is present they
agree exactly when their two (different) tracking-token tests agree, so one
normalized form is *not* a single system-wide deduplication key. -/
theorem normalize_url_handler_agreement :
    (∀ u : List Char, (normPrefix u).contains '?' = false →
      EnhancedQueryScraper.normalize_url u = JSONHandler.normalize_url u)
    ∧ (∀ u : List Char, (normPrefix u).contains '?' = true →
      (EnhancedQueryScraper.normalize_url u = JSONHandler.normalize_url u
        ↔ EnhancedQueryScraper.tracking_params.any
              (fun p => containsSub p (normPrefix u))
            = JSONHandler.tracking_params.any
              (fun p => containsSub p (normPrefix u)))) := by
  constructor
  · intro u h
    rw [EnhancedQueryScraper.normalize_url, JSONHandler.normalize_url,
        queryStep, queryStep, if_neg, if_neg]
    · rw [h]; simp
    · rw [h]; simp
  · intro u h
    have hq : '?' ∈ normPrefix u := (contains_true_iff _ _).mp h
    rw [EnhancedQueryScraper.normalize_url, JSONHandler.normalize_url,
        queryStep, queryStep, if_pos h, if_pos h]
    by_cases hA : EnhancedQueryScraper.tracking_params.any
        (fun p => containsSub p (normPrefix u)) = true
    · by_cases hB : JSONHandler.tracking_params.any
          (fun p => containsSub p (normPrefix u)) = true
      · rw [if_pos hA, if_pos hB, hA, hB]
        simp
      · rw [if_pos hA, if_neg hB, hA, Bool.eq_false_iff.mpr hB]
        constructor
        · intro hEq
          exact absurd hEq (takeWhile_ne_of_mem '?' _ hq)
        · intro hEq
          simp at hEq
    · by_cases hB : JSONHandler.tracking_params.any
          (fun p => containsSub p (normPrefix u)) = true
      · rw [if_neg hA, if_pos hB, hB, Bool.eq_false_iff.mpr hA]
        constructor
        · intro hEq
          exact absurd hEq.symm (takeWhile_ne_of_mem '?' _ hq)
        · intro hEq
          simp at hEq
      · rw [if_neg hA, if_neg hB, Bool.eq_false_iff.mpr hA, Bool.eq_false_iff.mpr hB]
        simp

/-- Witness for C4 amended: the two implementations agree on a query-free
URL. -/
theorem normalize_url_handler_agreement_witness :
    EnhancedQueryScraper.normalize_url ("http://www.Ex.com/Pricing/".toList)
      = JSONHandler.normalize_url ("http://www.Ex.com/Pricing/".toList) :=
  normalize_url_handler_agreement.1 ("http://www.Ex.com/Pricing/".toList) (by decide)
